import Mathlib

/-!
A shallow embedding of the `strvec` / `argv-array` string-vector module.

`src/argv-array.h` declares the data type (`struct strvec` with fields
`argv`, `argc`, `alloc`), the shared sentinel array `empty_strvec`, the
initializer `STRVEC_INIT { empty_strvec, 0, 0 }`, and the public
operations.  The implementation file (`strvec.c` / `argv-array.c`) is not
part of the sources, so the bodies of the operations are modelled from the
specification's contracts (spec §4.1) on top of an explicit heap of
pointer-arrays and string objects.

Heap model: arrays of string-pointer slots are addressed by natural
numbers; address `0` is the shared, immutable sentinel array
`empty_strvec` consisting of exactly one terminator slot.  String objects
are likewise addressed by naturals.  A slot value `none` models the NULL
terminator; `some p` models a pointer to string object `p`.  Freeing
memory has no observable effect at the value level and is modelled as a
no-op; allocation hands out fresh addresses.
-/

/-- A slot of a string-pointer array: `none` is the NULL terminator,
`some p` a pointer to string object `p`. -/
abbrev Slot := Option Nat

/-- The heap: arrays of slots and string objects, each addressed by
naturals, with allocation counters.  Array address `0` is reserved for the
shared sentinel `empty_strvec`; fresh array addresses start at `arrNext`
(kept ≥ 1). -/
structure Heap where
  arrays : Nat → List Slot
  arrNext : Nat
  strs : Nat → String
  strNext : Nat

/-- Contents of the shared sentinel array `empty_strvec` (src/argv-array.h
line 21): a single terminator slot. -/
def empty_strvec : List Slot := [none]

/-- Read the contents of the array at address `p`; address 0 is the shared
sentinel. -/
def Heap.lookupA (h : Heap) (p : Nat) : List Slot :=
  if p = 0 then empty_strvec else h.arrays p

/-- Overwrite the array at address `p`.  The shared sentinel (address 0)
is immutable; no operation ever writes through it. -/
def Heap.writeA (h : Heap) (p : Nat) (a : List Slot) : Heap :=
  if p = 0 then h else { h with arrays := Function.update h.arrays p a }

/-- Allocate a fresh array with contents `a`, returning the new heap and
the fresh address. -/
def Heap.allocA (h : Heap) (a : List Slot) : Heap × Nat :=
  ({ h with arrays := Function.update h.arrays h.arrNext a,
            arrNext := h.arrNext + 1 }, h.arrNext)

/-- Read the string object at address `p`. -/
def Heap.lookupS (h : Heap) (p : Nat) : String := h.strs p

/-- Allocate a fresh string object with value `s` (models `xstrdup`),
returning the new heap and the fresh address. -/
def Heap.allocS (h : Heap) (s : String) : Heap × Nat :=
  ({ h with strs := Function.update h.strs h.strNext s,
            strNext := h.strNext + 1 }, h.strNext)

/-- `struct strvec` (src/argv-array.h lines 30-34): the backing array
pointer, the number of elements not counting the terminating NULL, and
the allocated capacity in slots. -/
structure strvec where
  argv : Nat
  argc : Nat
  alloc : Nat
deriving DecidableEq, Repr

/-- `STRVEC_INIT { empty_strvec, 0, 0 }` (src/argv-array.h line 36). -/
def STRVEC_INIT : strvec := { argv := 0, argc := 0, alloc := 0 }

/-- Modelled from the spec: `strvec_init` is declared in src/argv-array.h
line 41 but its body is not in src/.  Spec §4.1 init: sets the vector to
the empty/sentinel state (array = shared sentinel, count = 0,
capacity = 0), no allocation. -/
def strvec_init : strvec := { argv := 0, argc := 0, alloc := 0 }

/-- Write slot `i` of an array, extending by one slot when `i` is the
first position past the initialized region (only ever used with
`i ≤ a.length`). -/
def writeSlot (a : List Slot) (i : Nat) (x : Slot) : List Slot :=
  if i < a.length then a.set i x else a ++ [x]

/-- Modelled from the spec: the growth policy of §4 ("double the previous
capacity, with a minimum initial nonzero capacity", always reaching at
least `need`). -/
def grow_alloc (alloc need : Nat) : Nat := max need (max 16 (2 * alloc))

/-- Modelled from the spec: capacity check of §4 — when fewer than `need`
slots are allocated, reallocate to a strictly larger capacity, preserving
the initialized slot contents verbatim (the reallocated buffer is a fresh
address). -/
def strvec_grow (h : Heap) (v : strvec) (need : Nat) : Heap × strvec :=
  if need ≤ v.alloc then (h, v)
  else
    ((h.allocA (h.lookupA v.argv)).1,
     { argv := (h.allocA (h.lookupA v.argv)).2, argc := v.argc,
       alloc := grow_alloc v.alloc need })

/-- Modelled from the spec: push §4.1, with the pushed string given by
value.  Ensures capacity for one more slot, duplicates the value into a
fresh string object, writes the duplicate at index `argc`, advances
`argc`, rewrites the terminator at the new `argc`, and returns the
duplicate's address. -/
def push_val (h : Heap) (v : strvec) (s : String) : Heap × strvec × Nat :=
  let g := strvec_grow h v (v.argc + 2)
  let d := g.1.allocS s
  let a0 := d.1.lookupA g.2.argv
  let a1 := writeSlot a0 g.2.argc (some d.2)
  let a2 := writeSlot a1 (g.2.argc + 1) none
  (d.1.writeA g.2.argv a2,
   { argv := g.2.argv, argc := g.2.argc + 1, alloc := g.2.alloc }, d.2)

/-- Modelled from the spec: `strvec_push` (src/argv-array.h line 45)
pushes a copy of the string pointed to by `p`. -/
def strvec_push (h : Heap) (v : strvec) (p : Nat) : Heap × strvec × Nat :=
  push_val h v (h.lookupS p)

/-- Modelled from the spec: `strvec_pushf` (src/argv-array.h line 51);
the formatting collaborator is external, so the operation receives the
already-built string and behaves exactly as push (spec §4.1
push-formatted). -/
def strvec_pushf (h : Heap) (v : strvec) (s : String) : Heap × strvec × Nat :=
  push_val h v s

/-- Modelled from the spec: `strvec_pushl` (src/argv-array.h line 60);
the variadic NULL-terminated argument list is modelled as a Lean list of
string addresses, pushed in order. -/
def strvec_pushl : Heap → strvec → List Nat → Heap × strvec
  | h, v, [] => (h, v)
  | h, v, p :: ps => strvec_pushl (strvec_push h v p).1 (strvec_push h v p).2.1 ps

/-- The elements of an array before its first terminator slot. -/
def beforeTerm : List Slot → List Nat
  | [] => []
  | none :: _ => []
  | some p :: rest => p :: beforeTerm rest

/-- Loop of `strvec_pushv`: push each address in order. -/
def pushvGo : Heap → strvec → List Nat → Heap × strvec
  | h, v, [] => (h, v)
  | h, v, p :: ps => pushvGo (strvec_push h v p).1 (strvec_push h v p).2.1 ps

/-- Modelled from the spec: `strvec_pushv` (src/argv-array.h line 63)
pushes a duplicate of each element of the NULL-terminated array at
address `arr`, in order, stopping at the first terminator slot. -/
def strvec_pushv (h : Heap) (v : strvec) (arr : Nat) : Heap × strvec :=
  pushvGo h v (beforeTerm (h.lookupA arr))

/-- Modelled from the spec: pop §4.1 — if `argc = 0`, no-op; otherwise
release the string at index `argc - 1` (not observable), decrement
`argc`, and rewrite the terminator at the new `argc`.  Capacity is left
untouched. -/
def strvec_pop (h : Heap) (v : strvec) : Heap × strvec :=
  if v.argc = 0 then (h, v)
  else
    (h.writeA v.argv ((h.lookupA v.argv).set (v.argc - 1) none),
     { argv := v.argv, argc := v.argc - 1, alloc := v.alloc })

/-- C `isspace` in the default locale: space, tab, newline, vertical tab,
form feed, carriage return. -/
def isWs (c : Char) : Bool :=
  c == ' ' || c == '\t' || c == '\n' || c == '\x0b' || c == '\x0c' || c == '\r'

/-- Whitespace scanner of split: walk the characters once, accumulating
the current token in `acc` (reversed); a whitespace character ends the
current token, a non-whitespace character extends it. -/
def splitAcc : List Char → List Char → List (List Char)
  | [], acc => if acc.isEmpty then [] else [acc.reverse]
  | c :: cs, acc =>
    if isWs c then
      if acc.isEmpty then splitAcc cs [] else acc.reverse :: splitAcc cs []
    else splitAcc cs (c :: acc)

/-- Loop of `strvec_split`: push each token by value, in order, under the
same contract as push. -/
def splitPush : Heap → strvec → List (List Char) → Heap × strvec
  | h, v, [] => (h, v)
  | h, v, w :: ws => splitPush (push_val h v (String.mk w)).1 (push_val h v (String.mk w)).2.1 ws

/-- Modelled from the spec: `strvec_split` (src/argv-array.h line 72)
tokenizes `text` on whitespace runs and pushes each token in left-to-right
order; no quoting or escaping is interpreted. -/
def strvec_split (h : Heap) (v : strvec) (text : String) : Heap × strvec :=
  splitPush h v (splitAcc text.data [])

/-- Modelled from the spec: clear §4.1 — releases every owned string and
the heap-owned backing array (releases are not observable in the value
model) and resets the vector to the empty/sentinel state, as init. -/
def strvec_clear (h : Heap) (_v : strvec) : Heap × strvec :=
  (h, strvec_init)

/-- Modelled from the spec: detach §4.1 — returns the current backing
array and resets the vector in place to the empty/sentinel state; if the
vector was already empty/sentinel, returns a reference to the shared
sentinel array (address 0) without allocating. -/
def strvec_detach (h : Heap) (v : strvec) : Heap × strvec × Nat :=
  if v.argv = 0 then (h, strvec_init, 0)
  else (h, strvec_init, v.argv)

/-- The slot of `v`'s backing array at index `i` (`none` when out of the
initialized region). -/
def slotOf (h : Heap) (v : strvec) (i : Nat) : Option Slot :=
  (h.lookupA v.argv)[i]?

/-- The string value stored at index `i` of `v`, when slot `i` is an
initialized non-terminator slot. -/
def strAt (h : Heap) (v : strvec) (i : Nat) : Option String :=
  match slotOf h v i with
  | some (some p) => some (h.lookupS p)
  | _ => none

/-- The sequence of string values stored at indices `< argc`. -/
def strsOf (h : Heap) (v : strvec) : List (Option String) :=
  (List.range v.argc).map (fun i => strAt h v i)

/-- A slot holds a live (non-terminator) string pointer below the string
allocation bound `n`. -/
def okSlot (n : Nat) : Option Slot → Bool
  | some (some p) => decide (p < n)
  | _ => false

/-- Data-model invariants (spec §3), plus the heap bookkeeping needed to
maintain them: the backing pointer is a valid address, address 0 coincides
with capacity 0 (sentinel state), the sentinel state is empty, slot `argc`
is the terminator, slots below `argc` are live string pointers, and the
capacity is 0 or at least `argc + 1`. -/
def StInv (h : Heap) (v : strvec) : Prop :=
  1 ≤ h.arrNext
  ∧ v.argv < h.arrNext
  ∧ (v.argv = 0 ↔ v.alloc = 0)
  ∧ (v.argv = 0 → v.argc = 0)
  ∧ slotOf h v v.argc = some none
  ∧ (∀ i, i < v.argc → okSlot h.strNext (slotOf h v i) = true)
  ∧ (v.alloc = 0 ∨ v.argc + 1 ≤ v.alloc)

instance stInvDecidable (h : Heap) (v : strvec) : Decidable (StInv h v) := by
  unfold StInv; infer_instance

/-- The prefix of an array up to and including its first terminator
slot: the NULL-terminated view a consumer of `argv` sees. -/
def takeToTerm : List Slot → List Slot
  | [] => []
  | none :: _ => [none]
  | some p :: rest => some p :: takeToTerm rest

/-- The NULL-terminated view of the array at address `p`, with string
pointers resolved to their values. -/
def termView (h : Heap) (p : Nat) : List (Option String) :=
  (takeToTerm (h.lookupA p)).map (fun s => s.map h.lookupS)

/-- A public operation issued against a vector; string inputs are given
by value and are allocated as fresh objects when the call is made. -/
inductive Op where
  | push : String → Op
  | pushf : String → Op
  | pushl : List String → Op
  | pushv : List String → Op
  | pop : Op
  | split : String → Op
  | clear : Op
  | detach : Op
  | init : Op

/-- Allocate a list of string objects, returning their addresses in
order. -/
def allocStrs : Heap → List String → Heap × List Nat
  | h, [] => (h, [])
  | h, s :: ss =>
    ((allocStrs (h.allocS s).1 ss).1, (h.allocS s).2 :: (allocStrs (h.allocS s).1 ss).2)

/-- One public call: allocate the call's inputs, then run the operation;
returned values (push's duplicate, detach's array) are dropped. -/
def stepOp (h : Heap) (v : strvec) : Op → Heap × strvec
  | .push s => ((strvec_push (h.allocS s).1 v (h.allocS s).2).1,
                (strvec_push (h.allocS s).1 v (h.allocS s).2).2.1)
  | .pushf s => ((strvec_pushf h v s).1, (strvec_pushf h v s).2.1)
  | .pushl ss => strvec_pushl (allocStrs h ss).1 v (allocStrs h ss).2
  | .pushv ss =>
    strvec_pushv ((allocStrs h ss).1.allocA ((allocStrs h ss).2.map some ++ [none])).1 v
      ((allocStrs h ss).1.allocA ((allocStrs h ss).2.map some ++ [none])).2
  | .pop => strvec_pop h v
  | .split t => strvec_split h v t
  | .clear => strvec_clear h v
  | .detach => ((strvec_detach h v).1, (strvec_detach h v).2.1)
  | .init => (h, strvec_init)

/-- Run a sequence of public calls. -/
def runOps : Heap → strvec → List Op → Heap × strvec
  | h, v, [] => (h, v)
  | h, v, op :: ops => runOps (stepOp h v op).1 (stepOp h v op).2 ops

/-- The heap before any allocation. -/
def emptyHeap : Heap :=
  { arrays := fun _ => [], arrNext := 1, strs := fun _ => "", strNext := 0 }

/-- How a heap/vector pair may evolve under the public operations: the
allocation frontier only advances; the backing pointer afterwards is the
sentinel, the old pointer, or a freshly allocated one; and arrays other
than the vector's own backing array are never written. -/
def Evolves (h : Heap) (v : strvec) (h' : Heap) (v' : strvec) : Prop :=
  h.arrNext ≤ h'.arrNext
  ∧ (v'.argv = 0 ∨ v'.argv = v.argv ∨ (h.arrNext ≤ v'.argv ∧ v'.argv < h'.arrNext))
  ∧ (∀ q, q ≠ 0 → q ≠ v.argv → q < h.arrNext → h'.lookupA q = h.lookupA q)

/-- Iterated `strvec_push` over a list of string addresses: the reference
form that `strvec_pushl` and `strvec_pushv` are compared against. -/
def pushEach (h : Heap) (v : strvec) (ps : List Nat) : Heap × strvec :=
  ps.foldl (fun st p => ((strvec_push st.1 st.2 p).1, (strvec_push st.1 st.2 p).2.1)) (h, v)

/-- A small concrete heap holding one string object (address 0), used to
instantiate theorems on concrete inputs. -/
def wHeap : Heap :=
  { arrays := fun _ => [], arrNext := 1, strs := fun _ => "a", strNext := 1 }

/-- A small concrete heap holding one string object and one allocated
array (address 1, a single terminator slot), used to instantiate theorems
on concrete inputs. -/
def wHeap2 : Heap :=
  { arrays := fun _ => [none], arrNext := 2, strs := fun _ => "a", strNext := 1 }

/-- A concrete text input for split, used to instantiate theorems. -/
def wText : String := " a  bb "

/-! ### Heap accessor lemmas -/

theorem lookupA_zero (h : Heap) : h.lookupA 0 = empty_strvec := rfl

theorem lookupA_writeA_self (h : Heap) (p : Nat) (a : List Slot) (hp : p ≠ 0) :
    (h.writeA p a).lookupA p = a := by
  simp [Heap.writeA, Heap.lookupA, hp]

theorem lookupA_writeA_ne (h : Heap) (p q : Nat) (a : List Slot) (hq : q ≠ p) :
    (h.writeA p a).lookupA q = h.lookupA q := by
  by_cases h0 : p = 0
  · simp [Heap.writeA, h0]
  · by_cases hq0 : q = 0
    · simp [Heap.lookupA, Heap.writeA, h0, hq0]
    · simp [Heap.lookupA, Heap.writeA, h0, hq0, Function.update_noteq hq]

theorem arrNext_writeA (h : Heap) (p : Nat) (a : List Slot) :
    (h.writeA p a).arrNext = h.arrNext := by
  unfold Heap.writeA; split <;> rfl

theorem strNext_writeA (h : Heap) (p : Nat) (a : List Slot) :
    (h.writeA p a).strNext = h.strNext := by
  unfold Heap.writeA; split <;> rfl

theorem lookupS_writeA (h : Heap) (p : Nat) (a : List Slot) (q : Nat) :
    (h.writeA p a).lookupS q = h.lookupS q := by
  unfold Heap.writeA Heap.lookupS; split <;> rfl

theorem lookupA_allocA_self (h : Heap) (a : List Slot) (h1 : 1 ≤ h.arrNext) :
    (h.allocA a).1.lookupA (h.allocA a).2 = a := by
  have : h.arrNext ≠ 0 := by omega
  simp [Heap.allocA, Heap.lookupA, this]

theorem lookupA_allocA_lt (h : Heap) (a : List Slot) (q : Nat) (hq : q < h.arrNext) :
    (h.allocA a).1.lookupA q = h.lookupA q := by
  by_cases hq0 : q = 0
  · simp [Heap.lookupA, hq0]
  · have : q ≠ h.arrNext := by omega
    simp [Heap.allocA, Heap.lookupA, hq0, Function.update_noteq this]

theorem arrNext_allocA (h : Heap) (a : List Slot) :
    (h.allocA a).1.arrNext = h.arrNext + 1 := rfl

theorem ptr_allocA (h : Heap) (a : List Slot) : (h.allocA a).2 = h.arrNext := rfl

theorem strNext_allocA (h : Heap) (a : List Slot) :
    (h.allocA a).1.strNext = h.strNext := rfl

theorem lookupS_allocA (h : Heap) (a : List Slot) (q : Nat) :
    (h.allocA a).1.lookupS q = h.lookupS q := rfl

theorem lookupS_allocS_self (h : Heap) (s : String) :
    (h.allocS s).1.lookupS (h.allocS s).2 = s := by
  simp [Heap.allocS, Heap.lookupS]

theorem lookupS_allocS_lt (h : Heap) (s : String) (q : Nat) (hq : q < h.strNext) :
    (h.allocS s).1.lookupS q = h.lookupS q := by
  have : q ≠ h.strNext := by omega
  simp [Heap.allocS, Heap.lookupS, Function.update_noteq this]

theorem strNext_allocS (h : Heap) (s : String) :
    (h.allocS s).1.strNext = h.strNext + 1 := rfl

theorem ptr_allocS (h : Heap) (s : String) : (h.allocS s).2 = h.strNext := rfl

theorem lookupA_allocS (h : Heap) (s : String) (q : Nat) :
    (h.allocS s).1.lookupA q = h.lookupA q := rfl

theorem arrNext_allocS (h : Heap) (s : String) :
    (h.allocS s).1.arrNext = h.arrNext := rfl

/-! ### writeSlot lemmas -/

theorem writeSlot_get_self (a : List Slot) (i : Nat) (x : Slot) (hi : i ≤ a.length) :
    (writeSlot a i x)[i]? = some x := by
  unfold writeSlot
  by_cases hlt : i < a.length
  · simp [hlt, List.getElem?_set_self hlt]
  · have he : i = a.length := by omega
    subst he
    simp [hlt, List.getElem?_concat_length]

theorem writeSlot_get_lt (a : List Slot) (i : Nat) (x : Slot) (j : Nat)
    (hj : j < i) (hi : i ≤ a.length) :
    (writeSlot a i x)[j]? = a[j]? := by
  unfold writeSlot
  by_cases hlt : i < a.length
  · simp [hlt, List.getElem?_set_ne (by omega : i ≠ j)]
  · have hja : j < a.length := by omega
    simp [hlt, List.getElem?_append, hja]

theorem writeSlot_length (a : List Slot) (i : Nat) (x : Slot) (hi : i ≤ a.length) :
    a.length ≤ (writeSlot a i x).length ∧ i < (writeSlot a i x).length := by
  unfold writeSlot
  by_cases hlt : i < a.length
  · simp [hlt]
  · have he : i = a.length := by omega
    simp [hlt, he]

/-! ### okSlot and strAt lemmas -/

theorem okSlot_mono (n m : Nat) (x : Option Slot) (hnm : n ≤ m)
    (hx : okSlot n x = true) : okSlot m x = true := by
  cases x with
  | none => simp [okSlot] at hx
  | some s =>
    cases s with
    | none => simp [okSlot] at hx
    | some p =>
      simp [okSlot] at hx ⊢
      omega

theorem strAt_preserved (h h' : Heap) (v v' : strvec) (i : Nat)
    (hsl : slotOf h' v' i = slotOf h v i)
    (hok : okSlot h.strNext (slotOf h v i) = true)
    (hs : ∀ q, q < h.strNext → h'.lookupS q = h.lookupS q) :
    strAt h' v' i = strAt h v i := by
  unfold strAt
  rw [hsl]
  cases hx : slotOf h v i with
  | none => rfl
  | some s =>
    cases s with
    | none => rfl
    | some p =>
      rw [hx] at hok
      simp [okSlot] at hok
      simp [hs p hok]

/-! ### Growth and push specifications -/

theorem grow_spec (h : Heap) (v : strvec) (hg : Heap) (vg : strvec)
    (hInv : StInv h v)
    (he : strvec_grow h v (v.argc + 2) = (hg, vg)) :
    vg.argc = v.argc
    ∧ vg.argv ≠ 0
    ∧ vg.argv < hg.arrNext
    ∧ v.argc + 2 ≤ vg.alloc
    ∧ hg.lookupA vg.argv = h.lookupA v.argv
    ∧ hg.strNext = h.strNext
    ∧ (∀ q, hg.lookupS q = h.lookupS q)
    ∧ h.arrNext ≤ hg.arrNext
    ∧ 1 ≤ hg.arrNext
    ∧ (∀ q, q ≠ 0 → q ≠ v.argv → q < h.arrNext → hg.lookupA q = h.lookupA q)
    ∧ (vg.argv = v.argv ∨ vg.argv = h.arrNext) := by
  obtain ⟨hn1, hlt, hiff, h0c, hterm, hok, hal⟩ := hInv
  unfold strvec_grow at he
  by_cases hle : v.argc + 2 ≤ v.alloc
  · rw [if_pos hle] at he
    injection he with e1 e2
    subst e1; subst e2
    have hva : v.argv ≠ 0 := by
      intro ha
      have := hiff.mp ha
      omega
    exact ⟨rfl, hva, hlt, hle, rfl, rfl, fun _ => rfl, Nat.le_refl _, hn1,
      fun _ _ _ _ => rfl, Or.inl rfl⟩
  · rw [if_neg hle] at he
    injection he with e1 e2
    subst e1; subst e2
    refine ⟨rfl, by simp [Heap.allocA]; omega, ?_, ?_, ?_, rfl, fun _ => rfl, ?_, ?_, ?_, ?_⟩
    · rw [arrNext_allocA]
      show h.arrNext < h.arrNext + 1
      omega
    · unfold grow_alloc
      exact Nat.le_max_left _ _
    · show (h.allocA (h.lookupA v.argv)).1.lookupA (h.allocA (h.lookupA v.argv)).2
        = h.lookupA v.argv
      exact lookupA_allocA_self h _ hn1
    · rw [arrNext_allocA]; omega
    · rw [arrNext_allocA]; omega
    · intro q _ _ hqlt
      exact lookupA_allocA_lt h _ q hqlt
    · exact Or.inr rfl

theorem push_val_spec (h : Heap) (v : strvec) (s : String) (h' : Heap) (v' : strvec) (r : Nat)
    (hInv : StInv h v) (he : push_val h v s = (h', v', r)) :
    v'.argc = v.argc + 1
    ∧ r = h.strNext
    ∧ h'.strNext = h.strNext + 1
    ∧ h'.lookupS r = s
    ∧ (∀ q, q < h.strNext → h'.lookupS q = h.lookupS q)
    ∧ slotOf h' v' v.argc = some (some r)
    ∧ slotOf h' v' (v.argc + 1) = some none
    ∧ (∀ i, i < v.argc → slotOf h' v' i = slotOf h v i)
    ∧ StInv h' v'
    ∧ h.arrNext ≤ h'.arrNext
    ∧ (∀ q, q ≠ 0 → q ≠ v.argv → q < h.arrNext → h'.lookupA q = h.lookupA q)
    ∧ (v'.argv = v.argv ∨ v'.argv = h.arrNext) := by
  rcases heg : strvec_grow h v (v.argc + 2) with ⟨hg, vg⟩
  obtain ⟨egc, egv0, egvlt, egal, eglook, egsn, egls, egmono, eg1, egframe, egdisj⟩ :=
    grow_spec h v hg vg hInv heg
  have hterm : (h.lookupA v.argv)[v.argc]? = some none := hInv.2.2.2.2.1
  have hok : ∀ i, i < v.argc → okSlot h.strNext (slotOf h v i) = true := hInv.2.2.2.2.2.1
  have hlen : v.argc < (h.lookupA v.argv).length := by
    by_contra hc
    rw [List.getElem?_eq_none (by omega)] at hterm
    exact Option.noConfusion hterm
  simp only [push_val] at he
  rw [heg] at he
  dsimp only at he
  injection he with e1 e23
  injection e23 with e2 e3
  -- abbreviations for the intermediate states
  have hdlook : (hg.allocS s).1.lookupA vg.argv = h.lookupA v.argv := by
    rw [lookupA_allocS]; exact eglook
  rw [egc] at e1 e2
  rw [hdlook] at e1
  have hb1 : (h.lookupA v.argv).length
      ≤ (writeSlot (h.lookupA v.argv) v.argc (some (hg.allocS s).2)).length ∧
      v.argc < (writeSlot (h.lookupA v.argv) v.argc (some (hg.allocS s).2)).length :=
    writeSlot_length _ _ _ (by omega)
  have hdup : (hg.allocS s).2 = h.strNext := by rw [ptr_allocS, egsn]
  -- the final backing array
  have hlookfin : h'.lookupA vg.argv =
      writeSlot (writeSlot (h.lookupA v.argv) v.argc (some (hg.allocS s).2)) (v.argc + 1) none := by
    rw [← e1]
    exact lookupA_writeA_self _ _ _ egv0
  have hvproj : v'.argv = vg.argv ∧ v'.argc = v.argc + 1 ∧ v'.alloc = vg.alloc := by
    rw [← e2]; exact ⟨rfl, rfl, rfl⟩
  have hslot : ∀ j, slotOf h' v' j =
      (writeSlot (writeSlot (h.lookupA v.argv) v.argc (some (hg.allocS s).2)) (v.argc + 1)
        none)[j]? := by
    intro j
    unfold slotOf
    rw [hvproj.1, hlookfin]
  have hs_argc : slotOf h' v' v.argc = some (some h.strNext) := by
    rw [hslot, writeSlot_get_lt _ _ _ _ (by omega) (by omega),
      writeSlot_get_self _ _ _ (by omega), hdup]
  have hs_term : slotOf h' v' (v.argc + 1) = some none := by
    rw [hslot, writeSlot_get_self _ _ _ (by omega)]
  have hs_lt : ∀ i, i < v.argc → slotOf h' v' i = slotOf h v i := by
    intro i hi
    unfold slotOf
    rw [hvproj.1, hlookfin, writeSlot_get_lt _ _ _ _ (by omega) (by omega),
      writeSlot_get_lt _ _ _ _ (by omega) (by omega)]
  have hsn : h'.strNext = h.strNext + 1 := by
    rw [← e1, strNext_writeA, strNext_allocS, egsn]
  have hr : r = h.strNext := by rw [← e3, hdup]
  have hlsr : h'.lookupS r = s := by
    rw [← e1, lookupS_writeA, ← e3]
    exact lookupS_allocS_self hg s
  have hlsq : ∀ q, q < h.strNext → h'.lookupS q = h.lookupS q := by
    intro q hq
    rw [← e1, lookupS_writeA, lookupS_allocS_lt _ _ _ (by omega), egls]
  have han : h'.arrNext = hg.arrNext := by
    rw [← e1, arrNext_writeA, arrNext_allocS]
  have hframe : ∀ q, q ≠ 0 → q ≠ v.argv → q < h.arrNext → h'.lookupA q = h.lookupA q := by
    intro q hq0 hqv hqlt
    have hqg : q ≠ vg.argv := by
      rcases egdisj with hd | hd <;> omega
    rw [← e1, lookupA_writeA_ne _ _ _ _ hqg, lookupA_allocS]
    exact egframe q hq0 hqv hqlt
  have hInv' : StInv h' v' := by
    refine ⟨by omega, by omega, ?_, ?_, ?_, ?_, ?_⟩
    · constructor
      · intro ha; rw [hvproj.1] at ha; exact absurd ha egv0
      · intro ha; rw [hvproj.2.2] at ha; omega
    · intro ha; rw [hvproj.1] at ha; exact absurd ha egv0
    · rw [hvproj.2.1]; exact hs_term
    · intro i hi
      rw [hvproj.2.1] at hi
      rcases Nat.lt_or_ge i v.argc with hi2 | hi2
      · rw [hs_lt i hi2, hsn]
        exact okSlot_mono _ _ _ (by omega) (hok i hi2)
      · have : i = v.argc := by omega
        subst this
        rw [hs_argc, hsn]
        simp [okSlot]
    · right; rw [hvproj.2.1, hvproj.2.2]; omega
  refine ⟨hvproj.2.1, hr, hsn, hlsr, hlsq, ?_, hs_term, hs_lt, hInv', by omega, hframe, ?_⟩
  · rw [hs_argc, hr]
  · rw [hvproj.1]; exact egdisj

/-! ### Evolution lemmas -/

theorem evolves_refl (h : Heap) (v : strvec) : Evolves h v h v :=
  ⟨Nat.le_refl _, Or.inr (Or.inl rfl), fun _ _ _ _ => rfl⟩

theorem evolves_trans (h₁ h₂ h₃ : Heap) (v₁ v₂ v₃ : strvec)
    (e12 : Evolves h₁ v₁ h₂ v₂) (e23 : Evolves h₂ v₂ h₃ v₃) : Evolves h₁ v₁ h₃ v₃ := by
  obtain ⟨m12, d12, f12⟩ := e12
  obtain ⟨m23, d23, f23⟩ := e23
  refine ⟨by omega, by rcases d12 with g | g | g <;> rcases d23 with k | k | k <;> omega, ?_⟩
  intro q hq0 hqv hqlt
  have hq2 : q ≠ v₂.argv := by rcases d12 with g | g | g <;> omega
  rw [f23 q hq0 hq2 (by omega), f12 q hq0 hqv hqlt]

theorem push_val_pres (h : Heap) (v : strvec) (s : String)
    (hInv : StInv h v) :
    StInv (push_val h v s).1 (push_val h v s).2.1
    ∧ Evolves h v (push_val h v s).1 (push_val h v s).2.1 := by
  obtain ⟨_, _, _, _, _, _, _, _, hInv', hmono, hframe, hdisj⟩ :=
    push_val_spec h v s (push_val h v s).1 (push_val h v s).2.1 (push_val h v s).2.2 hInv rfl
  refine ⟨hInv', hmono, ?_, hframe⟩
  rcases hdisj with hd | hd
  · exact Or.inr (Or.inl hd)
  · refine Or.inr (Or.inr ⟨Nat.le_of_eq hd.symm, ?_⟩)
    exact hInv'.2.1

theorem stInv_allocS (h : Heap) (v : strvec) (s : String) (hInv : StInv h v) :
    StInv (h.allocS s).1 v := by
  obtain ⟨hn1, hlt, hiff, h0c, hterm, hok, hal⟩ := hInv
  refine ⟨hn1, hlt, hiff, h0c, hterm, ?_, hal⟩
  intro i hi
  have hsl : slotOf (h.allocS s).1 v i = slotOf h v i := rfl
  rw [hsl, strNext_allocS]
  exact okSlot_mono _ _ _ (by omega) (hok i hi)

theorem evolves_allocS (h : Heap) (v : strvec) (s : String) :
    Evolves h v (h.allocS s).1 v :=
  ⟨Nat.le_refl _, Or.inr (Or.inl rfl), fun _ _ _ _ => rfl⟩

theorem stInv_allocA (h : Heap) (v : strvec) (a : List Slot) (hInv : StInv h v) :
    StInv (h.allocA a).1 v := by
  obtain ⟨hn1, hlt, hiff, h0c, hterm, hok, hal⟩ := hInv
  have hsl : ∀ i, slotOf (h.allocA a).1 v i = slotOf h v i := by
    intro i
    unfold slotOf
    rw [lookupA_allocA_lt h a v.argv hlt]
  refine ⟨?_, ?_, hiff, h0c, ?_, ?_, hal⟩
  · rw [arrNext_allocA]; omega
  · rw [arrNext_allocA]; omega
  · rw [hsl]; exact hterm
  · intro i hi
    rw [hsl]
    exact hok i hi

theorem evolves_allocA (h : Heap) (v : strvec) (a : List Slot) :
    Evolves h v (h.allocA a).1 v := by
  refine ⟨?_, Or.inr (Or.inl rfl), ?_⟩
  · rw [arrNext_allocA]; omega
  · intro q _ _ hqlt
    exact lookupA_allocA_lt h a q hqlt

theorem stInv_reset (h : Heap) (hn1 : 1 ≤ h.arrNext) : StInv h strvec_init := by
  refine ⟨hn1, by simp [strvec_init]; omega, by simp [strvec_init], fun _ => rfl, ?_, ?_,
    Or.inl rfl⟩
  · simp [slotOf, Heap.lookupA, strvec_init, empty_strvec]
  · intro i hi
    simp [strvec_init] at hi

theorem evolves_reset (h : Heap) (v : strvec) : Evolves h v h strvec_init :=
  ⟨Nat.le_refl _, Or.inl rfl, fun _ _ _ _ => rfl⟩

theorem getElem_some_lt (l : List Slot) (n : Nat) (x : Slot) (hx : l[n]? = some x) :
    n < l.length := by
  obtain ⟨hl, _⟩ := List.getElem?_eq_some.mp hx
  exact hl

theorem pop_pres (h : Heap) (v : strvec) (hInv : StInv h v) :
    StInv (strvec_pop h v).1 (strvec_pop h v).2
    ∧ Evolves h v (strvec_pop h v).1 (strvec_pop h v).2 := by
  obtain ⟨hn1, hlt, hiff, h0c, hterm, hok, hal⟩ := hInv
  by_cases hc : v.argc = 0
  · unfold strvec_pop
    rw [if_pos hc]
    exact ⟨⟨hn1, hlt, hiff, h0c, hterm, hok, hal⟩, evolves_refl h v⟩
  · unfold strvec_pop
    rw [if_neg hc]
    dsimp only
    have hv0 : v.argv ≠ 0 := fun ha => hc (h0c ha)
    have hlen : v.argc < (h.lookupA v.argv).length := getElem_some_lt _ _ _ hterm
    have hla : (h.writeA v.argv ((h.lookupA v.argv).set (v.argc - 1) none)).lookupA v.argv
        = (h.lookupA v.argv).set (v.argc - 1) none := lookupA_writeA_self _ _ _ hv0
    have hsl : ∀ j, slotOf (h.writeA v.argv ((h.lookupA v.argv).set (v.argc - 1) none))
        { argv := v.argv, argc := v.argc - 1, alloc := v.alloc } j
        = ((h.lookupA v.argv).set (v.argc - 1) none)[j]? := by
      intro j
      unfold slotOf
      rw [hla]
    refine ⟨⟨?_, ?_, hiff, fun ha => absurd ha hv0, ?_, ?_, ?_⟩, ?_, ?_, ?_⟩
    · rw [arrNext_writeA]; omega
    · dsimp only; rw [arrNext_writeA]; omega
    · dsimp only; rw [hsl, List.getElem?_set_self (by omega)]
    · dsimp only
      intro i hi
      rw [hsl, List.getElem?_set_ne (by omega : v.argc - 1 ≠ i), strNext_writeA]
      exact hok i (by omega)
    · dsimp only
      rcases hal with hz | hz
      · exact Or.inl hz
      · right; omega
    · rw [arrNext_writeA]
    · exact Or.inr (Or.inl rfl)
    · intro q hq0 hqv _
      exact lookupA_writeA_ne _ _ _ _ hqv

/-! ### Loop lemmas for pushl / pushv / split -/

theorem pushEach_nil (h : Heap) (v : strvec) : pushEach h v [] = (h, v) := rfl

theorem pushEach_cons (h : Heap) (v : strvec) (p : Nat) (ps : List Nat) :
    pushEach h v (p :: ps) = pushEach (strvec_push h v p).1 (strvec_push h v p).2.1 ps := rfl

theorem pushl_eq_pushEach : ∀ (ps : List Nat) (h : Heap) (v : strvec),
    strvec_pushl h v ps = pushEach h v ps
  | [], _, _ => rfl
  | _ :: ps, h, v => by
    rw [pushEach_cons]
    exact pushl_eq_pushEach ps _ _

theorem pushvGo_eq_pushEach : ∀ (ps : List Nat) (h : Heap) (v : strvec),
    pushvGo h v ps = pushEach h v ps
  | [], _, _ => rfl
  | _ :: ps, h, v => by
    rw [pushEach_cons]
    exact pushvGo_eq_pushEach ps _ _

theorem pushEach_pres : ∀ (ps : List Nat) (h : Heap) (v : strvec), StInv h v →
    StInv (pushEach h v ps).1 (pushEach h v ps).2
    ∧ Evolves h v (pushEach h v ps).1 (pushEach h v ps).2
  | [], h, v, hInv => ⟨hInv, evolves_refl h v⟩
  | p :: ps, h, v, hInv => by
    rw [pushEach_cons]
    obtain ⟨hInv1, hev1⟩ := push_val_pres h v (h.lookupS p) hInv
    obtain ⟨hInv2, hev2⟩ := pushEach_pres ps (strvec_push h v p).1 (strvec_push h v p).2.1 hInv1
    exact ⟨hInv2, evolves_trans _ _ _ _ _ _ hev1 hev2⟩

theorem push_val_strsOf (h : Heap) (v : strvec) (s : String) (h' : Heap) (v' : strvec) (r : Nat)
    (hInv : StInv h v) (he : push_val h v s = (h', v', r)) :
    strsOf h' v' = strsOf h v ++ [some s] := by
  obtain ⟨hargc, hr, hsn, hlsr, hlsq, hsa, hst, hslt, hInv', _, _, _⟩ :=
    push_val_spec h v s h' v' r hInv he
  have hok : ∀ i, i < v.argc → okSlot h.strNext (slotOf h v i) = true := hInv.2.2.2.2.2.1
  unfold strsOf
  rw [hargc, List.range_succ, List.map_append]
  congr 1
  · apply List.map_congr_left
    intro i hi
    have hi2 : i < v.argc := List.mem_range.mp hi
    exact strAt_preserved h h' v v' i (hslt i hi2) (hok i hi2) hlsq
  · simp only [List.map_cons, List.map_nil]
    simp [strAt, hsa, hlsr]

theorem splitPush_spec : ∀ (ws : List (List Char)) (h : Heap) (v : strvec)
    (h' : Heap) (v' : strvec), StInv h v → splitPush h v ws = (h', v') →
    strsOf h' v' = strsOf h v ++ ws.map (fun w => some (String.mk w))
    ∧ v'.argc = v.argc + ws.length
    ∧ StInv h' v'
    ∧ Evolves h v h' v'
  | [], h, v, h', v', hInv, he => by
    unfold splitPush at he
    injection he with e1 e2
    subst e1; subst e2
    exact ⟨by simp, rfl, hInv, evolves_refl h v⟩
  | w :: ws, h, v, h', v', hInv, he => by
    unfold splitPush at he
    obtain ⟨hInv1, hev1⟩ := push_val_pres h v (String.mk w) hInv
    have h1 := push_val_strsOf h v (String.mk w)
      (push_val h v (String.mk w)).1 (push_val h v (String.mk w)).2.1
      (push_val h v (String.mk w)).2.2 hInv rfl
    have hargc1 : (push_val h v (String.mk w)).2.1.argc = v.argc + 1 :=
      (push_val_spec h v (String.mk w) (push_val h v (String.mk w)).1
        (push_val h v (String.mk w)).2.1 (push_val h v (String.mk w)).2.2 hInv rfl).1
    obtain ⟨e1, e2, e3, e4⟩ := splitPush_spec ws (push_val h v (String.mk w)).1
      (push_val h v (String.mk w)).2.1 h' v' hInv1 he
    refine ⟨?_, ?_, e3, evolves_trans _ _ _ _ _ _ hev1 e4⟩
    · rw [e1, h1, List.map_cons, List.append_assoc, List.singleton_append]
    · rw [e2, hargc1, List.length_cons]
      omega

/-! ### Step and run preservation -/

theorem allocStrs_pres : ∀ (ss : List String) (h : Heap) (v : strvec), StInv h v →
    StInv (allocStrs h ss).1 v ∧ Evolves h v (allocStrs h ss).1 v
  | [], h, v, hInv => ⟨hInv, evolves_refl h v⟩
  | s :: ss, h, v, hInv => by
    obtain ⟨h2, e2⟩ := allocStrs_pres ss (h.allocS s).1 v (stInv_allocS h v s hInv)
    exact ⟨h2, evolves_trans _ _ _ _ _ _ (evolves_allocS h v s) e2⟩

theorem stepOp_pres (h : Heap) (v : strvec) (op : Op) (hInv : StInv h v) :
    StInv (stepOp h v op).1 (stepOp h v op).2
    ∧ Evolves h v (stepOp h v op).1 (stepOp h v op).2 := by
  cases op with
  | push s =>
    obtain ⟨h2, e2⟩ :=
      push_val_pres (h.allocS s).1 v ((h.allocS s).1.lookupS (h.allocS s).2)
        (stInv_allocS h v s hInv)
    exact ⟨h2, evolves_trans _ _ _ _ _ _ (evolves_allocS h v s) e2⟩
  | pushf s =>
    exact push_val_pres h v s hInv
  | pushl ss =>
    obtain ⟨h1, e1⟩ := allocStrs_pres ss h v hInv
    show StInv (strvec_pushl (allocStrs h ss).1 v (allocStrs h ss).2).1
        (strvec_pushl (allocStrs h ss).1 v (allocStrs h ss).2).2
      ∧ Evolves h v (strvec_pushl (allocStrs h ss).1 v (allocStrs h ss).2).1
        (strvec_pushl (allocStrs h ss).1 v (allocStrs h ss).2).2
    rw [pushl_eq_pushEach]
    obtain ⟨h2, e2⟩ := pushEach_pres (allocStrs h ss).2 (allocStrs h ss).1 v h1
    exact ⟨h2, evolves_trans _ _ _ _ _ _ e1 e2⟩
  | pushv ss =>
    obtain ⟨h1, e1⟩ := allocStrs_pres ss h v hInv
    have h1a := stInv_allocA (allocStrs h ss).1 v ((allocStrs h ss).2.map some ++ [none]) h1
    have e1a := evolves_allocA (allocStrs h ss).1 v ((allocStrs h ss).2.map some ++ [none])
    show StInv (strvec_pushv _ v _).1 (strvec_pushv _ v _).2
      ∧ Evolves h v (strvec_pushv _ v _).1 (strvec_pushv _ v _).2
    unfold strvec_pushv
    rw [pushvGo_eq_pushEach]
    obtain ⟨h2, e2⟩ := pushEach_pres _ _ v h1a
    exact ⟨h2, evolves_trans _ _ _ _ _ _ (evolves_trans _ _ _ _ _ _ e1 e1a) e2⟩
  | pop =>
    exact pop_pres h v hInv
  | split t =>
    obtain ⟨_, _, h2, e2⟩ := splitPush_spec (splitAcc t.data []) h v
      (splitPush h v (splitAcc t.data [])).1 (splitPush h v (splitAcc t.data [])).2 hInv rfl
    exact ⟨h2, e2⟩
  | clear =>
    exact ⟨stInv_reset h hInv.1, evolves_reset h v⟩
  | detach =>
    have hd : (strvec_detach h v).1 = h ∧ (strvec_detach h v).2.1 = strvec_init := by
      unfold strvec_detach
      split <;> exact ⟨rfl, rfl⟩
    show StInv (strvec_detach h v).1 (strvec_detach h v).2.1
      ∧ Evolves h v (strvec_detach h v).1 (strvec_detach h v).2.1
    rw [hd.1, hd.2]
    exact ⟨stInv_reset h hInv.1, evolves_reset h v⟩
  | init =>
    exact ⟨stInv_reset h hInv.1, evolves_reset h v⟩

theorem runOps_pres : ∀ (ops : List Op) (h : Heap) (v : strvec), StInv h v →
    StInv (runOps h v ops).1 (runOps h v ops).2
    ∧ Evolves h v (runOps h v ops).1 (runOps h v ops).2
  | [], h, v, hInv => ⟨hInv, evolves_refl h v⟩
  | op :: ops, h, v, hInv => by
    obtain ⟨h1, e1⟩ := stepOp_pres h v op hInv
    obtain ⟨h2, e2⟩ := runOps_pres ops (stepOp h v op).1 (stepOp h v op).2 h1
    exact ⟨h2, evolves_trans _ _ _ _ _ _ e1 e2⟩

theorem stInv_empty : StInv emptyHeap STRVEC_INIT := by decide

/-! ### Tokenizer correctness -/

theorem modifyHead_nil_acc : ∀ (l : List (List Char)),
    l.modifyHead (fun w => List.reverse [] ++ w) = l
  | [] => rfl
  | w :: ws => by simp [List.modifyHead]

theorem splitAcc_eq : ∀ (l : List Char) (acc : List Char),
    splitAcc l acc
      = ((l.splitOnP isWs).modifyHead (fun w => acc.reverse ++ w)).filter
          (fun w => !w.isEmpty)
  | [], acc => by
    cases acc with
    | nil => rfl
    | cons a as =>
      simp [splitAcc, List.splitOnP_nil, List.modifyHead, List.filter_cons]
  | c :: cs, acc => by
    by_cases hc : isWs c = true
    · have ih := splitAcc_eq cs []
      rw [modifyHead_nil_acc] at ih
      cases acc with
      | nil =>
        simp only [splitAcc, hc, if_true, List.isEmpty_nil]
        rw [ih, List.splitOnP_cons, if_pos hc, modifyHead_nil_acc, List.filter_cons]
        simp
      | cons a as =>
        simp only [splitAcc, hc, if_true, List.isEmpty_cons]
        rw [ih, List.splitOnP_cons, if_pos hc]
        simp only [List.modifyHead, List.append_nil, List.filter_cons]
        have hne : (!(a :: as).reverse.isEmpty) = true := by
          simp [List.isEmpty_eq_true]
        rw [if_pos hne]
        simp
    · have ih := splitAcc_eq cs (c :: acc)
      simp only [splitAcc, hc, if_false]
      rw [ih, List.splitOnP_cons, if_neg hc, List.modifyHead_modifyHead]
      have hfun : ((fun w => acc.reverse ++ w) ∘ List.cons c)
          = (fun w => (c :: acc).reverse ++ w) := by
        funext w
        simp
      rw [hfun]
      simp

/-! ### The NULL-terminated view under the invariant -/

theorem takeToTerm_spec (m : Nat) : ∀ (l : List Slot) (n : Nat),
    (∀ i, i < n → okSlot m l[i]? = true) → l[n]? = some none →
    takeToTerm l = l.take n ++ [none]
  | l, 0, _, hterm => by
    cases l with
    | nil => simp at hterm
    | cons x rest =>
      simp only [List.getElem?_cons_zero] at hterm
      injection hterm with hx
      subst hx
      rfl
  | l, n + 1, hok, hterm => by
    cases l with
    | nil => simp at hterm
    | cons x rest =>
      have h0 := hok 0 (by omega)
      simp only [List.getElem?_cons_zero] at h0
      cases x with
      | none => simp [okSlot] at h0
      | some p =>
        have hok2 : ∀ i, i < n → okSlot m rest[i]? = true := by
          intro i hi
          have := hok (i + 1) (by omega)
          simpa using this
        have hterm2 : rest[n]? = some none := by simpa using hterm
        show some p :: takeToTerm rest = some p :: (rest.take n ++ [none])
        rw [takeToTerm_spec m rest n hok2 hterm2]

theorem termView_of_inv (h : Heap) (v : strvec) (hInv : StInv h v) :
    termView h v.argv = strsOf h v ++ [none] := by
  obtain ⟨hn1, hlt, hiff, h0c, hterm, hok, hal⟩ := hInv
  unfold termView
  rw [takeToTerm_spec h.strNext (h.lookupA v.argv) v.argc hok hterm, List.map_append]
  congr 1
  apply List.ext_getElem?
  intro n
  rw [List.getElem?_map, List.getElem?_take]
  unfold strsOf
  rw [List.getElem?_map]
  by_cases hn : n < v.argc
  · rw [if_pos hn, List.getElem?_range hn]
    have hsl := hok n hn
    unfold slotOf at hsl
    cases hx : (h.lookupA v.argv)[n]? with
    | none => rw [hx] at hsl; simp [okSlot] at hsl
    | some s =>
      cases s with
      | none => rw [hx] at hsl; simp [okSlot] at hsl
      | some p =>
        simp [strAt, slotOf, hx, Option.map]
  · rw [if_neg hn]
    rw [List.getElem?_eq_none (by simpa using Nat.le_of_not_lt hn)]
    rfl

/-! ### Claim theorems -/

theorem okSlot_ne (n : Nat) (x : Option Slot) (hx : okSlot n x = true) :
    x ≠ some none ∧ x ≠ none := by
  cases x with
  | none => simp [okSlot] at hx
  | some s =>
    cases s with
    | none => simp [okSlot] at hx
    | some p => exact ⟨by simp, by simp⟩

/-- C1: for every sequence of public operations (init, push, push-formatted,
push-list, push-array, pop, split, clear, detach) starting from an
initialized vector, after every call the data-model invariants hold: the
argv pointer is a valid array address (never null/unset), the slot at
index argc holds the NULL terminator while no slot below argc is the
terminator (or uninitialized), and alloc is either 0 (shared sentinel) or
at least argc + 1. -/
theorem claim_C1 (ops : List Op) :
    slotOf (runOps emptyHeap STRVEC_INIT ops).1 (runOps emptyHeap STRVEC_INIT ops).2
      (runOps emptyHeap STRVEC_INIT ops).2.argc = some none
    ∧ (∀ i, i < (runOps emptyHeap STRVEC_INIT ops).2.argc →
        slotOf (runOps emptyHeap STRVEC_INIT ops).1 (runOps emptyHeap STRVEC_INIT ops).2 i
          ≠ some none
        ∧ slotOf (runOps emptyHeap STRVEC_INIT ops).1 (runOps emptyHeap STRVEC_INIT ops).2 i
          ≠ none)
    ∧ (runOps emptyHeap STRVEC_INIT ops).2.argv < (runOps emptyHeap STRVEC_INIT ops).1.arrNext
    ∧ ((runOps emptyHeap STRVEC_INIT ops).2.alloc = 0
        ∨ (runOps emptyHeap STRVEC_INIT ops).2.argc + 1
            ≤ (runOps emptyHeap STRVEC_INIT ops).2.alloc) := by
  obtain ⟨⟨hn1, hlt, hiff, h0c, hterm, hok, hal⟩, _⟩ :=
    runOps_pres ops emptyHeap STRVEC_INIT stInv_empty
  exact ⟨hterm, fun i hi => okSlot_ne _ _ (hok i hi), hlt, hal⟩

/-- C2: pushing a string appends an owned duplicate equal by value at index
equal to the old count, increments count by one, places the terminator at
the new count, leaves previously stored entries unchanged by value, and
returns the duplicate it stored, which is a different object from the
argument. -/
theorem claim_C2 (h : Heap) (v : strvec) (s : Nat) (h' : Heap) (v' : strvec) (r : Nat)
    (hInv : StInv h v) (hs : s < h.strNext)
    (he : strvec_push h v s = (h', v', r)) :
    v'.argc = v.argc + 1
    ∧ slotOf h' v' v.argc = some (some r)
    ∧ r ≠ s
    ∧ h'.lookupS r = h.lookupS s
    ∧ slotOf h' v' v'.argc = some none
    ∧ (∀ i, i < v.argc → strAt h' v' i = strAt h v i) := by
  obtain ⟨hargc, hr, hsn, hlsr, hlsq, hsa, hst, hslt, hInv', _, _, _⟩ :=
    push_val_spec h v (h.lookupS s) h' v' r hInv he
  have hok := hInv.2.2.2.2.2.1
  refine ⟨hargc, hsa, by omega, by rw [hlsr], by rw [hargc]; exact hst, ?_⟩
  intro i hi
  exact strAt_preserved h h' v v' i (hslt i hi) (hok i hi) hlsq

theorem claim_C2_witness :
    StInv wHeap STRVEC_INIT ∧ 0 < wHeap.strNext
    ∧ (strvec_push wHeap STRVEC_INIT 0).2.1.argc = STRVEC_INIT.argc + 1
    ∧ (strvec_push wHeap STRVEC_INIT 0).2.2 ≠ 0 :=
  ⟨by decide, by decide,
    (claim_C2 wHeap STRVEC_INIT 0 (strvec_push wHeap STRVEC_INIT 0).1
      (strvec_push wHeap STRVEC_INIT 0).2.1 (strvec_push wHeap STRVEC_INIT 0).2.2
      (by decide) (by decide) rfl).1,
    (claim_C2 wHeap STRVEC_INIT 0 (strvec_push wHeap STRVEC_INIT 0).1
      (strvec_push wHeap STRVEC_INIT 0).2.1 (strvec_push wHeap STRVEC_INIT 0).2.2
      (by decide) (by decide) rfl).2.2.1⟩

/-- C3: detach returns the NULL-terminated backing array of exactly
argc + 1 slots — the stored strings in order followed by the terminator —
and resets the vector to the empty/sentinel state; no subsequent operation
on the vector changes the contents of the detached array. -/
theorem claim_C3 (h : Heap) (v : strvec) (h₁ : Heap) (v₁ : strvec) (ret : Nat)
    (hInv : StInv h v) (he : strvec_detach h v = (h₁, v₁, ret)) :
    termView h₁ ret = strsOf h v ++ [none]
    ∧ (termView h₁ ret).length = v.argc + 1
    ∧ v₁ = strvec_init
    ∧ (∀ ops : List Op, (runOps h₁ v₁ ops).1.lookupA ret = h₁.lookupA ret) := by
  have hlen : (strsOf h v).length = v.argc := by
    unfold strsOf
    rw [List.length_map, List.length_range]
  unfold strvec_detach at he
  by_cases hz : v.argv = 0
  · rw [if_pos hz] at he
    injection he with e1 e23
    injection e23 with e2 e3
    subst e1; subst e2; subst e3
    have hc0 : v.argc = 0 := hInv.2.2.2.1 hz
    have hs0 : strsOf h v = [] := by
      unfold strsOf
      rw [hc0]
      rfl
    refine ⟨?_, ?_, rfl, ?_⟩
    · rw [hs0]
      rfl
    · rw [hc0]
      rfl
    · intro ops
      rw [lookupA_zero, lookupA_zero]
  · rw [if_neg hz] at he
    injection he with e1 e23
    injection e23 with e2 e3
    subst e1; subst e2; subst e3
    have htv := termView_of_inv h v hInv
    refine ⟨htv, ?_, rfl, ?_⟩
    · rw [htv, List.length_append, hlen]
      rfl
    · intro ops
      obtain ⟨_, hev⟩ := runOps_pres ops h strvec_init (stInv_reset h hInv.1)
      exact hev.2.2 v.argv hz hz hInv.2.1

theorem claim_C3_witness :
    StInv wHeap STRVEC_INIT
    ∧ termView (strvec_detach wHeap STRVEC_INIT).1 (strvec_detach wHeap STRVEC_INIT).2.2
        = strsOf wHeap STRVEC_INIT ++ [none] :=
  ⟨by decide,
    (claim_C3 wHeap STRVEC_INIT (strvec_detach wHeap STRVEC_INIT).1
      (strvec_detach wHeap STRVEC_INIT).2.1 (strvec_detach wHeap STRVEC_INIT).2.2
      (by decide) rfl).1⟩

/-- C4: detaching an empty/sentinel vector (count = 0, capacity = 0)
returns the shared sentinel array (address 0) without allocating — the
heap is unchanged — and the vector remains in the empty/sentinel state;
the returned array is the length-0 terminator-only sentinel. -/
theorem claim_C4 (h : Heap) (v : strvec) (hInv : StInv h v)
    (_hc : v.argc = 0) (ha : v.alloc = 0) :
    strvec_detach h v = (h, strvec_init, 0)
    ∧ h.lookupA 0 = empty_strvec := by
  have hz : v.argv = 0 := hInv.2.2.1.mpr ha
  unfold strvec_detach
  rw [if_pos hz]
  exact ⟨rfl, rfl⟩

theorem claim_C4_witness :
    StInv wHeap STRVEC_INIT ∧ STRVEC_INIT.argc = 0 ∧ STRVEC_INIT.alloc = 0
    ∧ strvec_detach wHeap STRVEC_INIT = (wHeap, strvec_init, 0) :=
  ⟨by decide, by decide, by decide,
    (claim_C4 wHeap STRVEC_INIT (by decide) (by decide) (by decide)).1⟩

theorem allWs_filter : ∀ (l : List Char), (∀ c, c ∈ l → isWs c = true) →
    (l.splitOnP isWs).filter (fun w => !w.isEmpty) = []
  | [], _ => rfl
  | c :: cs, hall => by
    rw [List.splitOnP_cons, if_pos (hall c (List.mem_cons_self c cs)), List.filter_cons]
    simp only [List.isEmpty_nil, Bool.not_true, Bool.false_eq_true, if_false]
    exact allWs_filter cs (fun d hd => hall d (List.mem_cons_of_mem c hd))

/-- C5: split appends exactly the maximal runs of non-whitespace characters
of the text (whitespace runs collapse, leading/trailing whitespace is
ignored, no quoting), in left-to-right order, each stored by value under
the push contract; empty or all-whitespace text appends nothing.  The
maximal runs are rendered independently as the nonempty pieces of
`List.splitOnP isWs`. -/
theorem claim_C5 (h : Heap) (v : strvec) (t : String) (h' : Heap) (v' : strvec)
    (hInv : StInv h v) (he : strvec_split h v t = (h', v')) :
    strsOf h' v' = strsOf h v
        ++ ((t.data.splitOnP isWs).filter (fun w => !w.isEmpty)).map
            (fun w => some (String.mk w))
    ∧ v'.argc = v.argc + ((t.data.splitOnP isWs).filter (fun w => !w.isEmpty)).length
    ∧ ((∀ c, c ∈ t.data → isWs c = true) → v'.argc = v.argc) := by
  have he2 : splitPush h v (splitAcc t.data []) = (h', v') := he
  obtain ⟨e1, e2, _, _⟩ := splitPush_spec (splitAcc t.data []) h v h' v' hInv he2
  have htok : splitAcc t.data [] = (t.data.splitOnP isWs).filter (fun w => !w.isEmpty) := by
    rw [splitAcc_eq, modifyHead_nil_acc]
  refine ⟨by rw [e1, htok], by rw [e2, htok], ?_⟩
  intro hall
  rw [e2, htok, allWs_filter t.data hall]
  rfl

theorem claim_C5_witness :
    StInv wHeap STRVEC_INIT
    ∧ (strvec_split wHeap STRVEC_INIT wText).2.argc
        = STRVEC_INIT.argc + ((wText.data.splitOnP isWs).filter (fun w => !w.isEmpty)).length :=
  ⟨by decide,
    (claim_C5 wHeap STRVEC_INIT wText (strvec_split wHeap STRVEC_INIT wText).1
      (strvec_split wHeap STRVEC_INIT wText).2 (by decide) rfl).2.1⟩

/-- C6: pushing a string and then popping restores the count to its value
before the push and restores every slot below that count to its previous
string value. -/
theorem claim_C6 (h : Heap) (v : strvec) (s : Nat) (h₁ : Heap) (v₁ : strvec) (r : Nat)
    (h₂ : Heap) (v₂ : strvec) (hInv : StInv h v) (_hs : s < h.strNext)
    (he1 : strvec_push h v s = (h₁, v₁, r)) (he2 : strvec_pop h₁ v₁ = (h₂, v₂)) :
    v₂.argc = v.argc ∧ (∀ i, i < v.argc → strAt h₂ v₂ i = strAt h v i) := by
  obtain ⟨hargc, hr, hsn, hlsr, hlsq, hsa, hst, hslt, hInv1, _, _, _⟩ :=
    push_val_spec h v (h.lookupS s) h₁ v₁ r hInv he1
  have hok := hInv.2.2.2.2.2.1
  have hc1 : v₁.argc ≠ 0 := by omega
  have hv10 : v₁.argv ≠ 0 := by
    intro hz
    have := hInv1.2.2.2.1 hz
    omega
  unfold strvec_pop at he2
  rw [if_neg hc1] at he2
  injection he2 with e1 e2
  constructor
  · rw [← e2]
    dsimp only
    omega
  · intro i hi
    have hsl2 : slotOf h₂ v₂ i = slotOf h₁ v₁ i := by
      rw [← e1, ← e2]
      unfold slotOf
      dsimp only
      rw [lookupA_writeA_self _ _ _ hv10, List.getElem?_set_ne (by omega)]
    have hls2 : ∀ q, q < h.strNext → h₂.lookupS q = h.lookupS q := by
      intro q hq
      rw [← e1, lookupS_writeA]
      exact hlsq q hq
    have hcomb : slotOf h₂ v₂ i = slotOf h v i := by rw [hsl2, hslt i hi]
    exact strAt_preserved h h₂ v v₂ i hcomb (hok i hi) hls2

theorem claim_C6_witness :
    StInv wHeap STRVEC_INIT ∧ 0 < wHeap.strNext
    ∧ (strvec_pop (strvec_push wHeap STRVEC_INIT 0).1
        (strvec_push wHeap STRVEC_INIT 0).2.1).2.argc = STRVEC_INIT.argc :=
  ⟨by decide, by decide,
    (claim_C6 wHeap STRVEC_INIT 0 (strvec_push wHeap STRVEC_INIT 0).1
      (strvec_push wHeap STRVEC_INIT 0).2.1 (strvec_push wHeap STRVEC_INIT 0).2.2
      (strvec_pop (strvec_push wHeap STRVEC_INIT 0).1 (strvec_push wHeap STRVEC_INIT 0).2.1).1
      (strvec_pop (strvec_push wHeap STRVEC_INIT 0).1 (strvec_push wHeap STRVEC_INIT 0).2.1).2
      (by decide) (by decide) rfl rfl).1⟩

/-- C7: after any sequence of pushes applied to a freshly initialized
vector, clear leaves the instance in exactly the freshly initialized
observable state (count 0, capacity 0, backing array the shared sentinel);
clear on an already-empty instance is safe and yields the same state. -/
theorem claim_C7 (h : Heap) (ss : List String) :
    (strvec_clear (runOps h strvec_init (ss.map Op.push)).1
        (runOps h strvec_init (ss.map Op.push)).2).2 = strvec_init
    ∧ (strvec_clear (runOps h strvec_init (ss.map Op.push)).1
        (runOps h strvec_init (ss.map Op.push)).2).1.lookupA strvec_init.argv = empty_strvec
    ∧ strvec_clear h strvec_init = (h, strvec_init) :=
  ⟨rfl, rfl, rfl⟩

/-- C8: pop on an empty vector is a no-op; otherwise it removes exactly
the entry at index count - 1, decrements count, places the terminator at
the new count, and leaves the slots below unchanged by value; pop never
changes the capacity. -/
theorem claim_C8 (h : Heap) (v : strvec) (h' : Heap) (v' : strvec)
    (hInv : StInv h v) (he : strvec_pop h v = (h', v')) :
    (v.argc = 0 → (h', v') = (h, v))
    ∧ (0 < v.argc →
        v'.argc = v.argc - 1
        ∧ slotOf h' v' (v.argc - 1) = some none
        ∧ (∀ i, i < v.argc - 1 → strAt h' v' i = strAt h v i))
    ∧ v'.alloc = v.alloc := by
  obtain ⟨hn1, hlt, hiff, h0c, hterm, hok, hal⟩ := hInv
  by_cases hc : v.argc = 0
  · unfold strvec_pop at he
    rw [if_pos hc] at he
    injection he with e1 e2
    subst e1; subst e2
    exact ⟨fun _ => rfl, fun hpos => absurd hc (by omega), rfl⟩
  · unfold strvec_pop at he
    rw [if_neg hc] at he
    injection he with e1 e2
    have hv0 : v.argv ≠ 0 := fun hz => hc (h0c hz)
    have hlen : v.argc < (h.lookupA v.argv).length := getElem_some_lt _ _ _ hterm
    refine ⟨fun h0 => absurd h0 hc, fun _ => ⟨?_, ?_, ?_⟩, ?_⟩
    · rw [← e2]
    · rw [← e1, ← e2]
      unfold slotOf
      dsimp only
      rw [lookupA_writeA_self _ _ _ hv0, List.getElem?_set_self (by omega)]
    · intro i hi
      have hsl : slotOf h' v' i = slotOf h v i := by
        rw [← e1, ← e2]
        unfold slotOf
        dsimp only
        rw [lookupA_writeA_self _ _ _ hv0, List.getElem?_set_ne (by omega)]
      have hls : ∀ q, q < h.strNext → h'.lookupS q = h.lookupS q := by
        intro q hq
        rw [← e1, lookupS_writeA]
      exact strAt_preserved h h' v v' i hsl (hok i (by omega)) hls
    · rw [← e2]

theorem claim_C8_witness :
    StInv wHeap STRVEC_INIT
    ∧ (STRVEC_INIT.argc = 0 →
        ((strvec_pop wHeap STRVEC_INIT).1, (strvec_pop wHeap STRVEC_INIT).2)
          = (wHeap, STRVEC_INIT)) :=
  ⟨by decide,
    (claim_C8 wHeap STRVEC_INIT (strvec_pop wHeap STRVEC_INIT).1
      (strvec_pop wHeap STRVEC_INIT).2 (by decide) rfl).1⟩

/-- C9: pushing a NULL-terminated source array has exactly the same effect
as pushing each of its elements before the first terminator in order, and
leaves the source array's contents unchanged; pushing a terminated
argument list likewise equals iterated pushes in order. -/
theorem claim_C9 (h : Heap) (v : strvec) (arr : Nat)
    (hInv : StInv h v) (hne : arr ≠ v.argv) (hlt : arr < h.arrNext) :
    strvec_pushv h v arr = pushEach h v (beforeTerm (h.lookupA arr))
    ∧ (strvec_pushv h v arr).1.lookupA arr = h.lookupA arr
    ∧ (∀ ps : List Nat, strvec_pushl h v ps = pushEach h v ps) := by
  have heq : strvec_pushv h v arr = pushEach h v (beforeTerm (h.lookupA arr)) := by
    unfold strvec_pushv
    exact pushvGo_eq_pushEach _ _ _
  refine ⟨heq, ?_, fun ps => pushl_eq_pushEach ps h v⟩
  rw [heq]
  by_cases hz : arr = 0
  · subst hz
    rw [lookupA_zero, lookupA_zero]
  · exact ((pushEach_pres (beforeTerm (h.lookupA arr)) h v hInv).2).2.2 arr hz hne hlt

theorem claim_C9_witness :
    StInv wHeap2 STRVEC_INIT ∧ (1 : Nat) ≠ STRVEC_INIT.argv ∧ 1 < wHeap2.arrNext
    ∧ (strvec_pushv wHeap2 STRVEC_INIT 1).1.lookupA 1 = wHeap2.lookupA 1 :=
  ⟨by decide, by decide, by decide,
    (claim_C9 wHeap2 STRVEC_INIT 1 (by decide) (by decide) (by decide)).2.1⟩

/-- C10: a vector created by assignment from STRVEC_INIT is in exactly the
same state as one initialized by strvec_init, and every subsequent
sequence of operations behaves identically on the two. -/
theorem claim_C10 :
    strvec_init = STRVEC_INIT
    ∧ (∀ (h : Heap) (ops : List Op), runOps h strvec_init ops = runOps h STRVEC_INIT ops) :=
  ⟨rfl, fun _ _ => rfl⟩
